import Mathlib

/-!
Verification of the ingestion core of `telegram-download-chat`.

Shallow embedding of:
  * `src/telegram_download_chat/partial.py` (`PartialDownloadManager`,
    the checkpoint store),
  * `src/telegram_download_chat/core/download.py`
    (`DownloadMixin.download_chat_by_topic`, the fetch loop),
  * `src/telegram_download_chat/cli/commands.py` (`_dedup_messages`),
  * one definition modelled from the spec for the `from_date` filtering of
    `core/downloader.py`, a file the sources do not include.

Machine integers do not overflow here (Telegram ids and day numbers are
small); ids and days are `Nat`.
-/

/-- A Telethon message as the fetch loop sees it: `id?` is `none` when the
object lacks an `id` attribute, `date?` is the message's UTC calendar day
(`none` when the object has no truthy `date`), and `payload` stands
opaquely for the rest of the record. -/
structure Msg where
  id? : Option Nat
  date? : Option Nat
  payload : Nat
  deriving DecidableEq, Repr

/-- Value of `serialized.get("id", 0)` in `PartialDownloadManager.save_messages`:
the id, or 0 when the serialized record has none. -/
def Msg.msgId (m : Msg) : Nat := m.id?.getD 0

/-- One line of the `.part.jsonl` checkpoint file: either a well-formed record
`{"m": ..., "i": ...}` (with the `"i"` key optional on read), or a line that
fails to JSON-parse (`bad`). -/
inductive RawLine where
  | record (m : Msg) (i : Option Nat)
  | bad
  deriving DecidableEq, Repr

/-- State of `PartialDownloadManager` for one `(output path, topic)` pair: the
lines appended to its temp file so far, and its `_last_saved_ids` entry for
that file (0 when the key is absent). -/
structure Checkpoint where
  lines : List RawLine
  lastSavedId : Nat
  deriving DecidableEq, Repr

/-- A checkpoint before anything was written. -/
def Checkpoint.empty : Checkpoint := ⟨[], 0⟩

/-- The write loop of `PartialDownloadManager.save_messages` (lines 36-48 of
`partial.py`): appends a record for each message whose `serialized.get("id", 0)`
strictly exceeds the `last_saved_id` captured at entry (`last`), threading
`new_last_id` (`newLast`). Returns the appended lines and the final
`new_last_id`. -/
def saveLoop (last newLast : Nat) : List Msg → List RawLine × Nat
  | [] => ([], newLast)
  | m :: rest =>
    if last < m.msgId then
      let nl := if newLast < m.msgId then m.msgId else newLast
      let r := saveLoop last nl rest
      (.record m (some m.msgId) :: r.1, r.2)
    else
      saveLoop last newLast rest

/-- `PartialDownloadManager.save_messages` for one `(output path, topic)` pair:
append the new records and update the `_last_saved_ids` watermark when it
grew. -/
def save_messages (messages : List Msg) (ck : Checkpoint) : Checkpoint :=
  let r := saveLoop ck.lastSavedId ck.lastSavedId messages
  { lines := ck.lines ++ r.1
    lastSavedId := if ck.lastSavedId < r.2 then r.2 else ck.lastSavedId }

/-- The read loop of `PartialDownloadManager.load_messages` (lines 69-81 of
`partial.py`): a well-formed record appends its message and replaces the
running last id with its `"i"` value (keeping the previous one when the key is
missing); a line that fails to parse is skipped. -/
def loadLoop (acc : List Msg) (lastId : Nat) : List RawLine → List Msg × Nat
  | [] => (acc, lastId)
  | .record m i :: rest => loadLoop (acc ++ [m]) (i.getD lastId) rest
  | .bad :: rest => loadLoop acc lastId rest

/-- `PartialDownloadManager.load_messages`: `none` models a missing checkpoint
file (return `([], 0)`); otherwise fold the read loop over the file's lines. -/
def load_messages : Option (List RawLine) → List Msg × Nat
  | none => ([], 0)
  | some lines => loadLoop [] 0 lines

/-- Lines 127-139 of `download_chat_by_topic` (`core/download.py`): the
initial `offset_id`. `sinceId.getD 0` is `since_id or 0`; when an output file
is given and partial saving is enabled, a load that yields messages raises the
offset to `max offset last_id`. -/
def initialOffset (sinceId : Option Nat) (outputFile savePart : Bool)
    (file? : Option (List RawLine)) : Nat :=
  let offset := sinceId.getD 0
  if outputFile && savePart then
    let r := load_messages file?
    if r.1 = [] then offset else max offset r.2
  else offset

/-- The duplicate test of line 179-181 of `core/download.py`:
`any(hasattr(m, "id") and m.id == msg.id for m in all_messages)`. -/
def bufferHasId (allMessages : List Msg) (i : Nat) : Bool :=
  allMessages.any fun m => m.id? == some i

/-- The manual `since_id` screen of line 198: `since_id is None or
msg.id > since_id`. -/
def acceptSince (sinceId : Option Nat) (i : Nat) : Bool :=
  match sinceId with
  | none => true
  | some k => k < i

/-- Outcome of lines 184-196 for one message: `raise` when `until_date` is set
but `datetime.strptime` fails on it (reached only for a message with a truthy
date), `breakPage` when the message's UTC day is strictly before the boundary
day, `pass` otherwise. -/
inductive UntilOutcome where
  | pass
  | breakPage
  | raise
  deriving DecidableEq, Repr

/-- The `until_date` test of lines 184-196. The first argument is `none` when
`until_date` is unset, `some none` when it is set but unparseable, and
`some (some u)` when it parses to UTC day `u`; the second is the message's
day, if any. -/
def untilCheck : Option (Option Nat) → Option Nat → UntilOutcome
  | some none, some _ => .raise
  | some (some u), some d => if d < u then .breakPage else .pass
  | _, _ => .pass

/-- Result of scanning one page: the `new_messages` list, or an uncaught
exception from the malformed-`until_date` parse. -/
inductive ScanResult where
  | ok (newMessages : List Msg)
  | error
  deriving DecidableEq, Repr

/-- The per-page filter loop of `download_chat_by_topic` (lines 176-199),
producing `new_messages`: a message without an `id`, or whose id is already in
the accumulated buffer, is skipped; then the `until_date` check may raise or
stop the page; then the `since_id` screen decides acceptance. The buffer does
not change during one page (`all_messages.extend` runs after the loop). -/
def pageScan (untilDate : Option (Option Nat)) (sinceId : Option Nat)
    (allMessages : List Msg) : List Msg → ScanResult
  | [] => .ok []
  | msg :: rest =>
    match msg.id? with
    | none => pageScan untilDate sinceId allMessages rest
    | some i =>
      if bufferHasId allMessages i then pageScan untilDate sinceId allMessages rest
      else
        match untilCheck untilDate msg.date? with
        | .raise => .error
        | .breakPage => .ok []
        | .pass =>
          if acceptSince sinceId i then
            match pageScan untilDate sinceId allMessages rest with
            | .ok out => .ok (msg :: out)
            | .error => .error
          else pageScan untilDate sinceId allMessages rest

/-- Line 214: `min(msg.id for msg in history)`. Well-defined when every
message of the page carries an id; Python raises `AttributeError` otherwise,
which `loopStep` models as a separate `raised` outcome. -/
def pageMinId (history : List Msg) : Nat :=
  match history.filterMap Msg.id? with
  | [] => 0
  | x :: xs => xs.foldl min x

/-- Static configuration of one `download_chat_by_topic` session: the
`until_date` argument (`none` unset, `some none` unparseable, `some (some u)`
day `u`), the `since_id` argument, whether `output_file and save_partial` both
hold (`savePart`), and `total_limit`. -/
structure Cfg where
  untilDate : Option (Option Nat)
  sinceId : Option Nat
  savePart : Bool
  totalLimit : Nat
  deriving DecidableEq, Repr

/-- Mutable state of the fetch loop: the `offset_id` cursor, the accumulated
`all_messages` buffer, and the checkpoint store for this session's temp
file. -/
structure Session where
  offset : Nat
  buffer : List Msg
  ck : Checkpoint
  deriving DecidableEq, Repr

/-- Outcome of one `self.client.get_messages` call: a page of messages, a
`FloodWaitError` carrying `seconds`, or any other exception. -/
inductive FetchResult where
  | flood (seconds : Nat)
  | page (history : List Msg)
  | err
  deriving DecidableEq, Repr

/-- What one loop iteration does next: `retry` (flood-wait path: sleep and
re-request with the same cursor), `advance` (request the next page), `done`
(break out of the loop), `raised` (an exception propagates out of the
loop). -/
inductive StepOut where
  | retry (s : Session) (sleep : Nat)
  | advance (s : Session)
  | done (s : Session)
  | raised (s : Session)
  deriving DecidableEq, Repr

/-- The session state carried by a step outcome. -/
def StepOut.state : StepOut → Session
  | .retry s _ => s
  | .advance s => s
  | .done s => s
  | .raised s => s

/-- One iteration of the `while True` fetch loop of `download_chat_by_topic`
(lines 145-234 of `core/download.py`). `stopRequested` is the line-146 test;
`saveDue` abstracts the periodic-save timer test
`current_time - last_save > save_interval`; `r` is the outcome of the
`get_messages` call. Only `FloodWaitError` is caught (flush a non-empty
buffer when partial saving is on, then sleep `seconds + 1` and retry with the
cursor unchanged); every other exception propagates. A non-empty page is
filtered by `pageScan`; the buffer is extended before any break; the cursor
becomes the minimum id of the whole page, and the loop breaks on: empty page,
no new messages, an `until_date` shortfall, a cursor at or below `since_id`,
or a reached `total_limit`. -/
def loopStep (cfg : Cfg) (stopRequested saveDue : Bool) (s : Session) :
    FetchResult → StepOut
  | .flood w =>
    if stopRequested then .done s
    else
      let s' := if cfg.savePart && !s.buffer.isEmpty then
          { s with ck := save_messages s.buffer s.ck }
        else s
      .retry s' (w + 1)
  | .err => if stopRequested then .done s else .raised s
  | .page history =>
    if stopRequested then .done s
    else if history.isEmpty then .done s
    else
      match pageScan cfg.untilDate cfg.sinceId s.buffer history with
      | .error => .raised s
      | .ok newMessages =>
        let s₁ := { s with buffer := s.buffer ++ newMessages }
        if newMessages.isEmpty then .done s₁
        else if cfg.untilDate.isSome && decide (newMessages.length < history.length) then
          .done s₁
        else if !(history.all fun m => m.id?.isSome) then .raised s₁
        else
          let s₂ := { s₁ with offset := pageMinId history }
          if (match cfg.sinceId with
              | some k => decide (pageMinId history ≤ k)
              | none => false) then .done s₂
          else
            let s₃ := if cfg.savePart && saveDue then
                { s₂ with ck := save_messages s₂.buffer s₂.ck }
              else s₂
            if 0 < cfg.totalLimit && cfg.totalLimit ≤ s₃.buffer.length then .done s₃
            else .advance s₃

/-- Terminal outcome of a finite run of the fetch loop. -/
inductive RunOut where
  | finished (s : Session)
  | raised (s : Session)
  | starved (s : Session)
  deriving DecidableEq, Repr

/-- A finite run of the fetch loop against a script of request outcomes (stop
flag false, periodic-save timer never due), counting issued page requests:
each consumed script entry is one `get_messages` call. `starved` means the
script ran out while the loop wanted another request. -/
def runLoop (cfg : Cfg) (s : Session) : List FetchResult → Nat × RunOut
  | [] => (0, .starved s)
  | r :: rest =>
    match loopStep cfg false false s r with
    | .retry s' _ => let t := runLoop cfg s' rest; (t.1 + 1, t.2)
    | .advance s' => let t := runLoop cfg s' rest; (t.1 + 1, t.2)
    | .done s' => (1, .finished s')
    | .raised s' => (1, .raised s')

/-- The loop of `_dedup_messages` (`cli/commands.py` lines 20-30) with its
running `seen` set: a message without an id is always kept; a message whose id
was already seen is dropped; otherwise the message is kept and its id
recorded. -/
def dedupGo (seen : List Nat) : List Msg → List Msg
  | [] => []
  | m :: rest =>
    match m.id? with
    | none => m :: dedupGo seen rest
    | some i => if i ∈ seen then dedupGo seen rest else m :: dedupGo (i :: seen) rest

/-- `_dedup_messages` from `cli/commands.py` (the leading underscore of the
Python name is dropped). -/
def dedup_messages (messages : List Msg) : List Msg := dedupGo [] messages

/-- Modelled from the spec: the spec's Message record (§3) as used by the
`TelegramChatDownloader.download_chat` variant in `core/downloader.py`, a file
the sources do not include — a mandatory service-assigned id and a UTC-day
date. -/
structure SpecMsg where
  id : Nat
  date : Nat
  deriving DecidableEq, Repr

/-- Modelled from the spec: the per-page iteration contract of §4.1 for the
`core/downloader.py` fetch loop (absent from the sources): skip an
already-seen id; stop the page at a message dated strictly before the
`until_date` day; with a `from_date` boundary, skip a message dated strictly
after it but keep scanning the page (step 3); skip a message whose id is not
strictly greater than `since_id`; otherwise accept, recording the id as
seen. -/
def specScan (untilD fromD sinceK : Option Nat) (seen : List Nat) :
    List SpecMsg → List SpecMsg
  | [] => []
  | m :: rest =>
    if m.id ∈ seen then specScan untilD fromD sinceK seen rest
    else if (match untilD with | some u => decide (m.date < u) | none => false) then []
    else if (match fromD with | some f => decide (f < m.date) | none => false) then
      specScan untilD fromD sinceK seen rest
    else if (match sinceK with | some k => decide (m.id ≤ k) | none => false) then
      specScan untilD fromD sinceK seen rest
    else m :: specScan untilD fromD sinceK (m.id :: seen) rest

/-- Modelled from the spec: a whole download of the `core/downloader.py`
variant as the accumulation of per-page scans (§4.1), the seen-id set and the
buffer growing with each accepted message. -/
def specRun (untilD fromD sinceK : Option Nat) (seen : List Nat)
    (acc : List SpecMsg) : List (List SpecMsg) → List SpecMsg
  | [] => acc
  | p :: ps =>
    let nw := specScan untilD fromD sinceK seen p
    specRun untilD fromD sinceK (seen ++ nw.map SpecMsg.id) (acc ++ nw) ps

/-- Messages of the well-formed records of a checkpoint file, in file order. -/
def recMsgs : List RawLine → List Msg
  | [] => []
  | .record m _ :: rest => m :: recMsgs rest
  | .bad :: rest => recMsgs rest

/-- The last `"i"` value among a file's records, threading a default exactly
as the read loop does. -/
def lastRecId : List RawLine → Nat → Nat
  | [], d => d
  | .record _ i :: rest, d => lastRecId rest (i.getD d)
  | .bad :: rest, d => lastRecId rest d

/-- Watermark after flushing one batch from watermark `w`: the maximum of `w`
and the ids accepted past `w`. -/
def batchWatermark (w : Nat) (batch : List Msg) : Nat :=
  ((batch.filter fun m => w < m.msgId).map Msg.msgId).foldl max w

/-- Messages appended by a sequence of flushes starting at watermark `w`, in
append order. -/
def flushedMsgs (w : Nat) : List (List Msg) → List Msg
  | [] => []
  | b :: bs => (b.filter fun m => w < m.msgId) ++ flushedMsgs (batchWatermark w b) bs

/-- A checkpoint built by a sequence of flushes from nothing. -/
def flushAll (batches : List (List Msg)) : Checkpoint :=
  batches.foldl (fun ck b => save_messages b ck) Checkpoint.empty

/-! ## Fold lemmas -/

lemma foldlMax_init_le (l : List Nat) (a : Nat) : a ≤ l.foldl max a := by
  induction l generalizing a with
  | nil => exact le_refl a
  | cons x xs ih => exact le_trans (le_max_left a x) (ih (max a x))

lemma foldlMax_le_of_mem (l : List Nat) (a x : Nat) (hx : x ∈ l) :
    x ≤ l.foldl max a := by
  induction l generalizing a with
  | nil => cases hx
  | cons y ys ih =>
    rcases List.mem_cons.mp hx with h | h
    · subst h
      exact le_trans (le_max_right a x) (foldlMax_init_le ys (max a x))
    · exact ih (max a y) h

lemma foldlMin_le_init (l : List Nat) (a : Nat) : l.foldl min a ≤ a := by
  induction l generalizing a with
  | nil => exact le_refl a
  | cons x xs ih => exact le_trans (ih (min a x)) (min_le_left a x)

lemma foldlMin_le_of_mem (l : List Nat) (a x : Nat) (hx : x ∈ l) :
    l.foldl min a ≤ x := by
  induction l generalizing a with
  | nil => cases hx
  | cons y ys ih =>
    rcases List.mem_cons.mp hx with h | h
    · subst h
      exact le_trans (foldlMin_le_init ys (min a x)) (min_le_right a x)
    · exact ih (min a y) h

lemma foldlMin_mem (l : List Nat) (a : Nat) :
    l.foldl min a = a ∨ l.foldl min a ∈ l := by
  induction l generalizing a with
  | nil => exact Or.inl rfl
  | cons x xs ih =>
    rcases ih (min a x) with h | h
    · rcases min_choice a x with hm | hm
      · exact Or.inl (by rw [List.foldl_cons, h, hm])
      · exact Or.inr (by rw [List.foldl_cons, h, hm]; exact List.mem_cons_self x xs)
    · exact Or.inr (List.mem_cons_of_mem x h)

lemma ite_lt_eq_max (a b : Nat) : (if a < b then b else a) = max a b := by
  rcases Nat.lt_or_ge a b with h | h
  · simp [h, Nat.max_eq_right h.le]
  · simp [Nat.not_lt.mpr h, Nat.max_eq_left h]

/-! ## Checkpoint store lemmas -/

lemma saveLoop_fst (last : Nat) (l : List Msg) : ∀ newLast : Nat,
    (saveLoop last newLast l).1
      = (l.filter fun m => last < m.msgId).map fun m => RawLine.record m (some m.msgId) := by
  induction l with
  | nil => intro newLast; simp [saveLoop]
  | cons m rest ih =>
    intro newLast
    by_cases hm : last < m.msgId
    · simp [saveLoop, hm, ih]
    · simp [saveLoop, hm, ih]

lemma saveLoop_snd (last : Nat) (l : List Msg) : ∀ newLast : Nat,
    (saveLoop last newLast l).2
      = ((l.filter fun m => last < m.msgId).map Msg.msgId).foldl max newLast := by
  induction l with
  | nil => intro newLast; simp [saveLoop]
  | cons m rest ih =>
    intro newLast
    by_cases hm : last < m.msgId
    · simp [saveLoop, hm, ih, ite_lt_eq_max]
    · simp [saveLoop, hm, ih]

lemma save_messages_lines (msgs : List Msg) (ck : Checkpoint) :
    (save_messages msgs ck).lines
      = ck.lines ++ ((msgs.filter fun m => ck.lastSavedId < m.msgId).map
          fun m => RawLine.record m (some m.msgId)) := by
  simp [save_messages, saveLoop_fst]

lemma save_messages_watermark (msgs : List Msg) (ck : Checkpoint) :
    (save_messages msgs ck).lastSavedId = batchWatermark ck.lastSavedId msgs := by
  have hinit := foldlMax_init_le
    ((msgs.filter fun m => ck.lastSavedId < m.msgId).map Msg.msgId) ck.lastSavedId
  simp only [save_messages, saveLoop_snd, batchWatermark]
  rcases lt_or_eq_of_le hinit with h | h
  · simp [h]
  · simp [← h]

lemma msgId_le_batchWatermark (msgs : List Msg) (w : Nat) (m : Msg) (hm : m ∈ msgs) :
    m.msgId ≤ batchWatermark w msgs := by
  rcases le_or_lt m.msgId w with h | h
  · exact le_trans h (foldlMax_init_le _ w)
  · refine foldlMax_le_of_mem _ w _ ?_
    exact List.mem_map_of_mem Msg.msgId (List.mem_filter.mpr ⟨hm, by simpa using h⟩)

lemma loadLoop_eq (L : List RawLine) : ∀ (acc : List Msg) (d : Nat),
    loadLoop acc d L = (acc ++ recMsgs L, lastRecId L d) := by
  induction L with
  | nil => intro acc d; simp [loadLoop, recMsgs, lastRecId]
  | cons x rest ih =>
    intro acc d
    cases x with
    | record m i => simp [loadLoop, recMsgs, lastRecId, ih]
    | bad => simp [loadLoop, recMsgs, lastRecId, ih]

lemma foldl_save_lines (bs : List (List Msg)) : ∀ ck : Checkpoint,
    (List.foldl (fun ck b => save_messages b ck) ck bs).lines
      = ck.lines ++ ((flushedMsgs ck.lastSavedId bs).map
          fun m => RawLine.record m (some m.msgId)) := by
  induction bs with
  | nil => intro ck; simp [flushedMsgs]
  | cons b rest ih =>
    intro ck
    rw [List.foldl_cons, ih (save_messages b ck), save_messages_lines,
      save_messages_watermark]
    simp [flushedMsgs]

lemma recMsgs_map_record (l : List Msg) :
    recMsgs (l.map fun m => RawLine.record m (some m.msgId)) = l := by
  induction l with
  | nil => rfl
  | cons m rest ih => simp [recMsgs, ih]

/-- C1. The claim says a configured `since_id` makes the session start from
cursor 0; the code (`offset_id = since_id or 0`, line 127) starts it at
`since_id` itself, so the first request asks only for ids below `since_id`,
all of which `min_id=since_id` then excludes — the incremental path can fetch
nothing.  First conjunct: `since_id = 5`, partial saving on, no checkpoint
file: the initial cursor is 5, not 0.  Second conjunct: the fresh
(non-incremental) resume path takes the id recorded on the checkpoint's last
line (9, the minimum of the newest-to-oldest flushed batch), as the claim
describes. -/
theorem c1_incremental_resume_offset_eval :
    initialOffset (some 5) true true none = 5
    ∧ initialOffset none true true
        (some [.record ⟨some 10, some 20, 0⟩ (some 10),
               .record ⟨some 9, some 20, 1⟩ (some 9)]) = 9 := by
  decide

/-- C2 counterexample. Flushing the buffer `[id 5, id 3]` (newest first, as
the downloader accumulates) appends records carrying ids 5 and 3; the claim
says `load_messages` then returns the maximum id seen across the flushed
records (5), but it returns the `"i"` of the last line: 3. -/
theorem c2_load_returns_last_not_max :
    (save_messages [⟨some 5, none, 0⟩, ⟨some 3, none, 1⟩] Checkpoint.empty).lines
      = [.record ⟨some 5, none, 0⟩ (some 5), .record ⟨some 3, none, 1⟩ (some 3)]
    ∧ load_messages
        (some (save_messages [⟨some 5, none, 0⟩, ⟨some 3, none, 1⟩] Checkpoint.empty).lines)
      = ([⟨some 5, none, 0⟩, ⟨some 3, none, 1⟩], 3)
    ∧ (3 : Nat) ≠ 5 := by
  decide

/-- C2 as amended: a missing checkpoint file loads as `([], 0)`; loading any
file returns the messages of its well-formed records in file order together
with the `"i"` value of the **last** record (not the maximum across records),
lines that fail to parse being skipped without aborting; and replaying a
checkpoint built by any sequence of flushes from empty reconstructs exactly
the messages those flushes appended, in order. -/
theorem c2_load_messages_replay (L : List RawLine) (batches : List (List Msg)) :
    load_messages none = ([], 0)
    ∧ load_messages (some L) = (recMsgs L, lastRecId L 0)
    ∧ (load_messages (some (flushAll batches).lines)).1 = flushedMsgs 0 batches := by
  refine ⟨rfl, by simp [load_messages, loadLoop_eq], ?_⟩
  have h1 : (load_messages (some (flushAll batches).lines)).1
      = recMsgs (flushAll batches).lines := by
    simp [load_messages, loadLoop_eq]
  rw [h1, flushAll, foldl_save_lines]
  simp [Checkpoint.empty, recMsgs_map_record]

/-- C3. `save_messages` appends exactly the records of the messages whose
`id` strictly exceeds the store's recorded watermark for the pair, in buffer
order; the previous file content is a prefix of the new one (nothing is
rewritten); and immediately flushing the same buffer again appends nothing. -/
theorem c3_save_messages_append_watermark (msgs : List Msg) (ck : Checkpoint) :
    (save_messages msgs ck).lines
      = ck.lines ++ ((msgs.filter fun m => ck.lastSavedId < m.msgId).map
          fun m => RawLine.record m (some m.msgId))
    ∧ (∃ t, (save_messages msgs ck).lines = ck.lines ++ t)
    ∧ (save_messages msgs (save_messages msgs ck)).lines
      = (save_messages msgs ck).lines := by
  refine ⟨save_messages_lines msgs ck, ⟨_, save_messages_lines msgs ck⟩, ?_⟩
  rw [save_messages_lines msgs (save_messages msgs ck), save_messages_watermark]
  have hnil : (msgs.filter fun m => batchWatermark ck.lastSavedId msgs < m.msgId) = [] := by
    refine List.filter_eq_nil_iff.mpr fun m hm => ?_
    simpa using not_lt.mpr (msgId_le_batchWatermark msgs ck.lastSavedId m hm)
  simp [hnil]

/-! ## Page-scan lemmas -/

lemma pageScan_cons_none (u : Option (Option Nat)) (k : Option Nat) (buf : List Msg)
    (msg : Msg) (rest : List Msg) (hm : msg.id? = none) :
    pageScan u k buf (msg :: rest) = pageScan u k buf rest := by
  simp [pageScan, hm]

lemma pageScan_cons_dup (u : Option (Option Nat)) (k : Option Nat) (buf : List Msg)
    (msg : Msg) (rest : List Msg) (i : Nat) (hm : msg.id? = some i)
    (hb : bufferHasId buf i = true) :
    pageScan u k buf (msg :: rest) = pageScan u k buf rest := by
  simp [pageScan, hm, hb]

lemma pageScan_cons_fresh (u : Option (Option Nat)) (k : Option Nat) (buf : List Msg)
    (msg : Msg) (rest : List Msg) (i : Nat) (hm : msg.id? = some i)
    (hb : bufferHasId buf i = false) :
    pageScan u k buf (msg :: rest)
      = (match untilCheck u msg.date? with
         | .raise => .error
         | .breakPage => .ok []
         | .pass =>
           if acceptSince k i then
             match pageScan u k buf rest with
             | .ok out => .ok (msg :: out)
             | .error => .error
           else pageScan u k buf rest) := by
  simp [pageScan, hm, hb]

lemma pageScan_ok_ids (u : Option (Option Nat)) (k : Option Nat) (buf : List Msg) :
    ∀ (h out : List Msg), pageScan u k buf h = .ok out →
      ∀ m ∈ out, m.id?.isSome = true := by
  intro h
  induction h with
  | nil =>
    intro out hout
    injection hout with e
    subst e
    intro m hm
    cases hm
  | cons msg rest ih =>
    intro out hout
    cases hmid : msg.id? with
    | none =>
      rw [pageScan_cons_none u k buf msg rest hmid] at hout
      exact ih out hout
    | some i =>
      cases hb : bufferHasId buf i with
      | true =>
        rw [pageScan_cons_dup u k buf msg rest i hmid hb] at hout
        exact ih out hout
      | false =>
        rw [pageScan_cons_fresh u k buf msg rest i hmid hb] at hout
        cases huc : untilCheck u msg.date? with
        | raise => rw [huc] at hout; simp at hout
        | breakPage =>
          rw [huc] at hout
          injection hout with e
          subst e
          intro m hm
          cases hm
        | pass =>
          rw [huc] at hout
          by_cases ha : acceptSince k i = true
          · rw [if_pos ha] at hout
            cases hrec : pageScan u k buf rest with
            | ok out' =>
              rw [hrec] at hout
              injection hout with e
              subst e
              intro m hm
              rcases List.mem_cons.mp hm with rfl | hm'
              · simp [hmid]
              · exact ih out' hrec m hm'
            | error => rw [hrec] at hout; simp at hout
          · rw [if_neg ha] at hout
            exact ih out hout

lemma pageScan_ok_until (u : Nat) (k : Option Nat) (buf : List Msg) :
    ∀ (h out : List Msg), pageScan (some (some u)) k buf h = .ok out →
      ∀ m ∈ out, ∀ d, m.date? = some d → u ≤ d := by
  intro h
  induction h with
  | nil =>
    intro out hout
    injection hout with e
    subst e
    intro m hm
    cases hm
  | cons msg rest ih =>
    intro out hout
    cases hmid : msg.id? with
    | none =>
      rw [pageScan_cons_none _ k buf msg rest hmid] at hout
      exact ih out hout
    | some i =>
      cases hb : bufferHasId buf i with
      | true =>
        rw [pageScan_cons_dup _ k buf msg rest i hmid hb] at hout
        exact ih out hout
      | false =>
        rw [pageScan_cons_fresh _ k buf msg rest i hmid hb] at hout
        cases hd : msg.date? with
        | none =>
          rw [hd] at hout
          simp only [untilCheck] at hout
          by_cases ha : acceptSince k i = true
          · rw [if_pos ha] at hout
            cases hrec : pageScan (some (some u)) k buf rest with
            | ok out' =>
              rw [hrec] at hout
              injection hout with e
              subst e
              intro m hm
              rcases List.mem_cons.mp hm with rfl | hm'
              · intro d hdd; rw [hd] at hdd; cases hdd
              · exact ih out' hrec m hm'
            | error => rw [hrec] at hout; simp at hout
          · rw [if_neg ha] at hout
            exact ih out hout
        | some d' =>
          rw [hd] at hout
          by_cases hdu : d' < u
          · simp only [untilCheck, if_pos hdu] at hout
            injection hout with e
            subst e
            intro m hm
            cases hm
          · simp only [untilCheck, if_neg hdu] at hout
            by_cases ha : acceptSince k i = true
            · rw [if_pos ha] at hout
              cases hrec : pageScan (some (some u)) k buf rest with
              | ok out' =>
                rw [hrec] at hout
                injection hout with e
                subst e
                intro m hm
                rcases List.mem_cons.mp hm with rfl | hm'
                · intro d hdd
                  rw [hd] at hdd
                  injection hdd with e'
                  subst e'
                  exact Nat.not_lt.mp hdu
                · exact ih out' hrec m hm'
              | error => rw [hrec] at hout; simp at hout
            · rw [if_neg ha] at hout
              exact ih out hout

lemma pageScan_until_stop (u : Nat) (k : Option Nat) (buf : List Msg)
    (mb : Msg) (i d : Nat) (hid : mb.id? = some i) (hbuf : bufferHasId buf i = false)
    (hd : mb.date? = some d) (hlt : d < u) :
    ∀ (pre post : List Msg),
      pageScan (some (some u)) k buf (pre ++ mb :: post)
        = pageScan (some (some u)) k buf pre := by
  intro pre
  induction pre with
  | nil =>
    intro post
    rw [List.nil_append, pageScan_cons_fresh _ k buf mb post i hid hbuf, hd]
    simp [untilCheck, hlt, pageScan]
  | cons p pre' ih =>
    intro post
    rw [List.cons_append]
    cases hmid : p.id? with
    | none =>
      rw [pageScan_cons_none _ k buf p _ hmid, pageScan_cons_none _ k buf p pre' hmid, ih]
    | some j =>
      cases hb : bufferHasId buf j with
      | true =>
        rw [pageScan_cons_dup _ k buf p _ j hmid hb,
          pageScan_cons_dup _ k buf p pre' j hmid hb, ih]
      | false =>
        rw [pageScan_cons_fresh _ k buf p _ j hmid hb,
          pageScan_cons_fresh _ k buf p pre' j hmid hb, ih]

lemma pageMinId_le (history : List Msg) (m : Msg) (i : Nat)
    (hm : m ∈ history) (hi : m.id? = some i) : pageMinId history ≤ i := by
  have hmem : i ∈ history.filterMap Msg.id? := List.mem_filterMap.mpr ⟨m, hm, hi⟩
  cases hfm : history.filterMap Msg.id? with
  | nil => rw [hfm] at hmem; cases hmem
  | cons x xs =>
    rw [hfm] at hmem
    simp only [pageMinId, hfm]
    rcases List.mem_cons.mp hmem with rfl | hx
    · exact foldlMin_le_init xs i
    · exact foldlMin_le_of_mem xs x i hx

lemma pageMinId_mem (history : List Msg) (hne : history.filterMap Msg.id? ≠ []) :
    ∃ m ∈ history, m.id? = some (pageMinId history) := by
  have hmem : pageMinId history ∈ history.filterMap Msg.id? := by
    cases hfm : history.filterMap Msg.id? with
    | nil => exact absurd hfm hne
    | cons x xs =>
      simp only [pageMinId, hfm]
      rcases foldlMin_mem xs x with h | h
      · rw [h]; exact List.mem_cons_self x xs
      · exact List.mem_cons_of_mem x h
  exact List.mem_filterMap.mp hmem

lemma loopStep_page_advance (cfg : Cfg) (saveDue : Bool) (s : Session)
    (history newMessages : List Msg)
    (hisEmpty : history.isEmpty = false)
    (hscan : pageScan cfg.untilDate cfg.sinceId s.buffer history = .ok newMessages)
    (hnewEmpty : newMessages.isEmpty = false)
    (hshortb : (cfg.untilDate.isSome
        && decide (newMessages.length < history.length)) = false)
    (hallb : (history.all fun m => m.id?.isSome) = true) :
    loopStep cfg false saveDue s (.page history)
      = (if (match cfg.sinceId with
             | some k => decide (pageMinId history ≤ k)
             | none => false)
         then .done ⟨pageMinId history, s.buffer ++ newMessages, s.ck⟩
         else
           let s₃ : Session := if cfg.savePart && saveDue then
               ⟨pageMinId history, s.buffer ++ newMessages,
                save_messages (s.buffer ++ newMessages) s.ck⟩
             else ⟨pageMinId history, s.buffer ++ newMessages, s.ck⟩
           if 0 < cfg.totalLimit && cfg.totalLimit ≤ s₃.buffer.length then .done s₃
           else .advance s₃) := by
  simp only [loopStep, Bool.false_eq_true, if_false, hisEmpty, hscan, hnewEmpty,
    hshortb, hallb, Bool.not_true]

/-- C4. For a page that yields new messages (and over which line 214's
`min` is defined, every page message carrying an id, and which does not end
the loop through the `until_date` shortfall break of lines 207-212): the
session state after the step carries `offset_id = pageMinId history`, which
is a lower bound of — and attained among — the ids of **all** messages of the
page, not only the accepted ones; and if `since_id = k` is set and that new
cursor is ≤ k, the loop stops (with the buffer already extended by the new
messages). -/
theorem c4_cursor_advance_min_page_id (cfg : Cfg) (saveDue : Bool) (s : Session)
    (history newMessages : List Msg)
    (hall : ∀ m ∈ history, m.id?.isSome = true)
    (hscan : pageScan cfg.untilDate cfg.sinceId s.buffer history = .ok newMessages)
    (hnew : newMessages ≠ [])
    (hshort : ¬(cfg.untilDate.isSome = true ∧ newMessages.length < history.length)) :
    (loopStep cfg false saveDue s (.page history)).state.offset = pageMinId history
    ∧ (∀ m ∈ history, ∀ i, m.id? = some i → pageMinId history ≤ i)
    ∧ (∃ m ∈ history, m.id? = some (pageMinId history))
    ∧ (∀ k, cfg.sinceId = some k → pageMinId history ≤ k →
        loopStep cfg false saveDue s (.page history)
          = .done ⟨pageMinId history, s.buffer ++ newMessages, s.ck⟩) := by
  have hne : history ≠ [] := by
    intro hnil
    subst hnil
    injection hscan with e
    exact hnew e.symm
  have hisEmpty : history.isEmpty = false := by
    cases history with
    | nil => exact absurd rfl hne
    | cons a l => rfl
  have hnewEmpty : newMessages.isEmpty = false := by
    cases newMessages with
    | nil => exact absurd rfl hnew
    | cons a l => rfl
  have hshortb : (cfg.untilDate.isSome
      && decide (newMessages.length < history.length)) = false := by
    cases hu : cfg.untilDate.isSome
    · simp
    · simp only [Bool.true_and]
      exact decide_eq_false fun hc => hshort ⟨hu, hc⟩
  have hallb : (history.all fun m => m.id?.isSome) = true :=
    List.all_eq_true.mpr hall
  have hfmne : history.filterMap Msg.id? ≠ [] := by
    cases history with
    | nil => exact absurd rfl hne
    | cons a l =>
      have ha := hall a (List.mem_cons_self a l)
      cases hia : a.id? with
      | none => rw [hia] at ha; cases ha
      | some j =>
        simp [List.filterMap_cons, hia]
  have hstep := loopStep_page_advance cfg saveDue s history newMessages
    hisEmpty hscan hnewEmpty hshortb hallb
  refine ⟨?_, fun m hm i hi => pageMinId_le history m i hm hi,
    pageMinId_mem history hfmne, fun k hk hle => ?_⟩
  · rw [hstep]
    split
    · rfl
    · dsimp only
      split <;> split <;> rfl
  · rw [hstep, hk]
    simp [decide_eq_true hle]

/-- C4 witness: the configuration `since_id = 8`, empty buffer, page
`[id 10, id 9]` accepts both messages and the theorem's conclusions hold
there, with the next cursor 9. -/
theorem c4_cursor_advance_min_page_id_witness :
    (loopStep ⟨none, some 8, false, 0⟩ false false ⟨0, [], .empty⟩
        (.page [⟨some 10, none, 0⟩, ⟨some 9, none, 1⟩])).state.offset
      = pageMinId [⟨some 10, none, 0⟩, ⟨some 9, none, 1⟩]
    ∧ (∀ m ∈ [(⟨some 10, none, 0⟩ : Msg), ⟨some 9, none, 1⟩], ∀ i, m.id? = some i →
        pageMinId [⟨some 10, none, 0⟩, ⟨some 9, none, 1⟩] ≤ i)
    ∧ (∃ m ∈ [(⟨some 10, none, 0⟩ : Msg), ⟨some 9, none, 1⟩],
        m.id? = some (pageMinId [⟨some 10, none, 0⟩, ⟨some 9, none, 1⟩]))
    ∧ (∀ k, (some 8 : Option Nat) = some k →
        pageMinId [⟨some 10, none, 0⟩, ⟨some 9, none, 1⟩] ≤ k →
        loopStep ⟨none, some 8, false, 0⟩ false false ⟨0, [], .empty⟩
            (.page [⟨some 10, none, 0⟩, ⟨some 9, none, 1⟩])
          = .done ⟨pageMinId [⟨some 10, none, 0⟩, ⟨some 9, none, 1⟩],
              [] ++ [⟨some 10, none, 0⟩, ⟨some 9, none, 1⟩], .empty⟩) :=
  c4_cursor_advance_min_page_id ⟨none, some 8, false, 0⟩ false ⟨0, [], .empty⟩
    [⟨some 10, none, 0⟩, ⟨some 9, none, 1⟩] [⟨some 10, none, 0⟩, ⟨some 9, none, 1⟩]
    (by decide) (by decide) (by decide) (by decide)

/-- C5 counterexample. With `until_date` parsing to day 10, a buffer already
holding the message with id 8 (day 3), and the fetched page
`[⟨id 8, day 3⟩, ⟨id 9, no date⟩]`: the first page message's day (3) is
strictly before the boundary, yet scanning continues (the duplicate check
fires first), and the second message is accepted although it carries no date
at all — so neither "every accepted message has a date ≥ D" nor "no further
message is accepted after a message dated before D" holds as stated. -/
theorem c5_until_accepts_dateless_message :
    pageScan (some (some 10)) none [⟨some 8, some 3, 0⟩]
        [⟨some 8, some 3, 0⟩, ⟨some 9, none, 1⟩]
      = .ok [⟨some 9, none, 1⟩]
    ∧ (⟨some 9, none, 1⟩ : Msg).date? = none
    ∧ (⟨some 8, some 3, 0⟩ : Msg).date? = some 3
    ∧ 3 < 10 := by
  decide

/-- C5 as amended: with `until_date` parsing to day `u`, (first conjunct)
every message the page loop accepts that carries a date has UTC day ≥ u, the
boundary day inclusive (a message without a truthy date bypasses the check);
and (second conjunct) on encountering a **novel id-bearing** message whose day
is strictly before `u`, the page loop stops and accepts nothing further from
that page — a duplicate or id-less old message is skipped without stopping. -/
theorem c5_until_date_day_filter (u : Nat) (k : Option Nat)
    (buf h pre post out : List Msg) (mb : Msg) (i d : Nat) :
    (pageScan (some (some u)) k buf h = .ok out →
      ∀ m ∈ out, ∀ d', m.date? = some d' → u ≤ d')
    ∧ (mb.id? = some i → bufferHasId buf i = false → mb.date? = some d → d < u →
      pageScan (some (some u)) k buf (pre ++ mb :: post)
        = pageScan (some (some u)) k buf pre) :=
  ⟨fun hout => pageScan_ok_until u k buf h out hout,
   fun hid hbuf hd hlt => pageScan_until_stop u k buf mb i d hid hbuf hd hlt pre post⟩

/-- C7. On a `FloodWaitError` carrying `w` seconds (stop flag clear): when
partial saving to an output file is enabled and the accumulated buffer is
non-empty, the loop first flushes the buffer to the checkpoint store and then
retries with sleep `w + 1`; otherwise it retries with sleep `w + 1` and the
checkpoint untouched; in either case the offset cursor and the buffer are
unchanged, so the same page request is retried, and nothing bounds the number
of such retries (the state carries no attempt counter). Any other exception
from the page request propagates out of the loop — it is not retried. -/
theorem c7_flood_wait_flush_retry (cfg : Cfg) (saveDue : Bool) (s : Session) (w : Nat) :
    (cfg.savePart = true → s.buffer ≠ [] →
      loopStep cfg false saveDue s (.flood w)
        = .retry { s with ck := save_messages s.buffer s.ck } (w + 1))
    ∧ (cfg.savePart = false ∨ s.buffer = [] →
      loopStep cfg false saveDue s (.flood w) = .retry s (w + 1))
    ∧ (loopStep cfg false saveDue s (.flood w)).state.offset = s.offset
    ∧ (loopStep cfg false saveDue s (.flood w)).state.buffer = s.buffer
    ∧ loopStep cfg false saveDue s .err = .raised s := by
  have hbe : ∀ b : List Msg, b ≠ [] → b.isEmpty = false := by
    intro b hb
    cases b with
    | nil => exact absurd rfl hb
    | cons a l => rfl
  refine ⟨fun hsp hb => ?_, fun hor => ?_, ?_, ?_, rfl⟩
  · simp [loopStep, hsp, hbe s.buffer hb]
  · rcases hor with hsp | hb
    · simp [loopStep, hsp]
    · simp [loopStep, hb]
  · simp only [loopStep, Bool.false_eq_true, if_false]
    split <;> rfl
  · simp only [loopStep, Bool.false_eq_true, if_false]
    split <;> rfl

/-- C7 witness: the spec's scenario — a flood-wait of 5 seconds with three
messages already buffered and partial saving on: the checkpoint file then
holds exactly those three records before the sleep of 5 + 1 seconds, and the
retry keeps cursor 42. -/
theorem c7_flood_wait_flush_retry_witness :
    loopStep ⟨none, none, true, 0⟩ false false
        ⟨42, [⟨some 3, none, 0⟩, ⟨some 2, none, 1⟩, ⟨some 1, none, 2⟩], .empty⟩
        (.flood 5)
      = .retry ⟨42, [⟨some 3, none, 0⟩, ⟨some 2, none, 1⟩, ⟨some 1, none, 2⟩],
          ⟨[.record ⟨some 3, none, 0⟩ (some 3), .record ⟨some 2, none, 1⟩ (some 2),
            .record ⟨some 1, none, 2⟩ (some 1)], 3⟩⟩ 6 := by
  have h := (c7_flood_wait_flush_retry ⟨none, none, true, 0⟩ false
    ⟨42, [⟨some 3, none, 0⟩, ⟨some 2, none, 1⟩, ⟨some 1, none, 2⟩], .empty⟩ 5).1
    rfl (by decide)
  rw [h]
  decide

/-- C8 counterexample. With an unparseable `until_date` and a first page
containing one fresh dated message, the run performs one page fetch and only
then surfaces the parse failure — not zero fetches as the claim states
(`datetime.strptime(until_date, ...)` runs inside the per-message loop, after
the request). -/
theorem c8_malformed_until_one_fetch_raise :
    runLoop ⟨some none, none, false, 0⟩ ⟨0, [], .empty⟩
        [.page [⟨some 5, some 7, 0⟩]]
      = (1, .raised ⟨0, [], .empty⟩)
    ∧ (1 : Nat) ≠ 0 := by
  decide

/-- C8 as amended: a malformed `until_date` is not rejected before network
activity. Whenever a session surfaces an exception, at least one page request
has already been issued; and a session whose first page is empty completes
without surfacing the parse failure at all. -/
theorem c8_parse_surfaces_after_first_fetch (cfg : Cfg) (s s' : Session)
    (script : List FetchResult) (n : Nat) :
    (runLoop cfg s script = (n, .raised s') → 1 ≤ n)
    ∧ runLoop cfg s [.page []] = (1, .finished s) := by
  constructor
  · intro hrun
    cases script with
    | nil => simp [runLoop] at hrun
    | cons r rest =>
      rw [runLoop] at hrun
      split at hrun
      all_goals simp only [Prod.mk.injEq] at hrun
      all_goals omega
  · simp [runLoop, loopStep]

/-- C10. The page loop never adds a message lacking an `id` attribute to
`new_messages` (and hence to the accumulated buffer): every message of a
successful scan carries an id, and an id-less page message is skipped without
any other effect on the scan. -/
theorem c10_new_messages_have_ids (u : Option (Option Nat)) (k : Option Nat)
    (buf h rest out : List Msg) (m : Msg) :
    (pageScan u k buf h = .ok out → ∀ m' ∈ out, m'.id?.isSome = true)
    ∧ (m.id? = none → pageScan u k buf (m :: rest) = pageScan u k buf rest) :=
  ⟨fun hout => pageScan_ok_ids u k buf h out hout,
   fun hm => pageScan_cons_none u k buf m rest hm⟩

/-! ## Deduplicator lemmas -/

lemma dedupGo_sublist (l : List Msg) : ∀ seen : List Nat, (dedupGo seen l).Sublist l := by
  induction l with
  | nil => intro seen; simp [dedupGo]
  | cons m rest ih =>
    intro seen
    cases hm : m.id? with
    | none =>
      simp only [dedupGo, hm]
      exact List.Sublist.cons₂ m (ih seen)
    | some i =>
      by_cases hi : i ∈ seen
      · simp only [dedupGo, hm, if_pos hi]
        exact List.Sublist.cons m (ih seen)
      · simp only [dedupGo, hm, if_neg hi]
        exact List.Sublist.cons₂ m (ih (i :: seen))

lemma dedupGo_filter_id (i : Nat) (l : List Msg) : ∀ seen : List Nat,
    (dedupGo seen l).filter (fun m => m.id? = some i)
      = if i ∈ seen then [] else ((l.find? fun m => m.id? = some i).toList) := by
  induction l with
  | nil => intro seen; simp [dedupGo]
  | cons m rest ih =>
    intro seen
    cases hm : m.id? with
    | none =>
      simp only [dedupGo, hm]
      rw [List.filter_cons, List.find?_cons]
      simp [hm, ih seen]
    | some j =>
      by_cases hjs : j ∈ seen
      · simp only [dedupGo, hm, if_pos hjs, ih seen]
        by_cases his : i ∈ seen
        · simp [his]
        · have hji : ¬(j = i) := fun h => his (h ▸ hjs)
          rw [List.find?_cons]
          simp [hm, hji, his]
      · by_cases hij : i = j
        · subst hij
          have his : i ∉ seen := hjs
          simp only [dedupGo, hm, if_neg hjs]
          rw [List.filter_cons, List.find?_cons]
          simp [hm, his, ih (i :: seen)]
        · simp only [dedupGo, hm, if_neg hjs]
          rw [List.filter_cons, List.find?_cons]
          have : i ∈ j :: seen ↔ i ∈ seen := by simp [List.mem_cons, hij]
          simp [hm, Ne.symm hij, hij, ih (j :: seen), this]

lemma dedupGo_filter_idless (l : List Msg) : ∀ seen : List Nat,
    (dedupGo seen l).filter (fun m => m.id?.isNone)
      = l.filter (fun m => m.id?.isNone) := by
  induction l with
  | nil => intro seen; simp [dedupGo]
  | cons m rest ih =>
    intro seen
    cases hm : m.id? with
    | none => simp [dedupGo, hm, List.filter_cons, ih seen]
    | some j =>
      by_cases hjs : j ∈ seen
      · simp [dedupGo, hm, hjs, List.filter_cons, ih seen]
      · simp [dedupGo, hm, hjs, List.filter_cons, ih (j :: seen)]

lemma dedupGo_ids_fresh_nodup (l : List Msg) : ∀ seen : List Nat,
    (∀ j ∈ (dedupGo seen l).filterMap Msg.id?, j ∉ seen)
    ∧ ((dedupGo seen l).filterMap Msg.id?).Nodup := by
  induction l with
  | nil => intro seen; simp [dedupGo]
  | cons m rest ih =>
    intro seen
    cases hm : m.id? with
    | none =>
      simp only [dedupGo, hm, List.filterMap_cons]
      exact ih seen
    | some j =>
      by_cases hjs : j ∈ seen
      · simp only [dedupGo, hm, if_pos hjs]
        exact ih seen
      · simp only [dedupGo, hm, if_neg hjs, List.filterMap_cons]
        obtain ⟨ihfresh, ihnodup⟩ := ih (j :: seen)
        constructor
        · intro x hx
          rcases List.mem_cons.mp hx with rfl | hx'
          · exact hjs
          · intro hxs
            exact ihfresh x hx' (List.mem_cons_of_mem j hxs)
        · refine List.nodup_cons.mpr ⟨fun hj => ?_, ihnodup⟩
          exact ihfresh j hj (List.mem_cons_self j seen)

/-- C9. Merging an existing list `E` with freshly fetched `N` by
`_dedup_messages (E ++ N)`: the result is a subsequence of `E ++ N` (first-seen
relative order preserved); for every id `i`, the result keeps exactly the first
occurrence of `i` in `E ++ N` and drops every later message with that id;
messages lacking an id are all kept; and the result holds no two messages with
the same id. -/
theorem c9_dedup_first_occurrence (E N : List Msg) (i : Nat) :
    (dedup_messages (E ++ N)).Sublist (E ++ N)
    ∧ (dedup_messages (E ++ N)).filter (fun m => m.id? = some i)
        = (((E ++ N).find? fun m => m.id? = some i).toList)
    ∧ (dedup_messages (E ++ N)).filter (fun m => m.id?.isNone)
        = (E ++ N).filter (fun m => m.id?.isNone)
    ∧ ((dedup_messages (E ++ N)).filterMap Msg.id?).Nodup := by
  refine ⟨dedupGo_sublist (E ++ N) [], ?_, dedupGo_filter_idless (E ++ N) [],
    (dedupGo_ids_fresh_nodup (E ++ N) []).2⟩
  have h := dedupGo_filter_id i (E ++ N) []
  simpa [dedup_messages] using h

/-! ## Spec-modelled `from_date` lemmas -/

lemma specScan_from_le (untilD sinceK : Option Nat) (f : Nat) (p : List SpecMsg) :
    ∀ seen : List Nat, ∀ m ∈ specScan untilD (some f) sinceK seen p, m.date ≤ f := by
  induction p with
  | nil => intro seen m hm; cases hm
  | cons x rest ih =>
    intro seen m hm
    simp only [specScan] at hm
    by_cases h1 : x.id ∈ seen
    · rw [if_pos h1] at hm
      exact ih seen m hm
    · rw [if_neg h1] at hm
      cases hu : (match untilD with | some u => decide (x.date < u) | none => false) with
      | true => rw [hu] at hm; simp at hm
      | false =>
        rw [hu] at hm
        simp only [Bool.false_eq_true, if_false] at hm
        by_cases hf : f < x.date
        · rw [if_pos (by simpa using hf)] at hm
          exact ih seen m hm
        · rw [if_neg (by simpa using hf)] at hm
          cases hk : (match sinceK with | some k => decide (x.id ≤ k) | none => false) with
          | true => rw [hk] at hm; simp only [if_true] at hm; exact ih seen m hm
          | false =>
            rw [hk] at hm
            simp only [Bool.false_eq_true, if_false, List.mem_cons] at hm
            rcases hm with rfl | hm'
            · exact Nat.not_lt.mp hf
            · exact ih (x.id :: seen) m hm'

lemma specScan_skip_newer (untilD sinceK : Option Nat) (f : Nat) (seen : List Nat)
    (mb : SpecMsg) (post : List SpecMsg)
    (hseen : mb.id ∉ seen)
    (hu : ∀ u, untilD = some u → u ≤ mb.date)
    (hf : f < mb.date) :
    specScan untilD (some f) sinceK seen (mb :: post)
      = specScan untilD (some f) sinceK seen post := by
  cases untilD with
  | none => simp [specScan, hseen, hf]
  | some u =>
    have hub : ¬ mb.date < u := Nat.not_lt.mpr (hu u rfl)
    simp [specScan, hseen, hub, hf]

lemma specRun_from_le (untilD sinceK : Option Nat) (f : Nat)
    (pages : List (List SpecMsg)) :
    ∀ (seen : List Nat) (acc : List SpecMsg), (∀ m ∈ acc, m.date ≤ f) →
      ∀ m ∈ specRun untilD (some f) sinceK seen acc pages, m.date ≤ f := by
  induction pages with
  | nil => intro seen acc hacc m hm; exact hacc m hm
  | cons p ps ih =>
    intro seen acc hacc m hm
    simp only [specRun] at hm
    refine ih _ _ ?_ m hm
    intro m' hm'
    rcases List.mem_append.mp hm' with h | h
    · exact hacc m' h
    · exact specScan_from_le untilD sinceK f p seen m' h

/-- C6 (spec-modelled: the `from_date` handling lives in
`TelegramChatDownloader.download_chat` of `core/downloader.py`, not among the
sources; `specScan`/`specRun` follow §4.1 of the spec). With
`from_date = f` configured: every message a page scan accepts has date ≤ f; a
not-yet-seen message dated strictly after `f` (and not stopping the page via
`until_date`) is skipped while the rest of the page is still scanned; and a
whole download accumulated over any pages returns only messages with
date ≤ f. -/
theorem c6_from_date_window (untilD sinceK : Option Nat) (f : Nat) (seen : List Nat)
    (p post : List SpecMsg) (mb : SpecMsg) (pages : List (List SpecMsg)) :
    (∀ m ∈ specScan untilD (some f) sinceK seen p, m.date ≤ f)
    ∧ (mb.id ∉ seen → (∀ u, untilD = some u → u ≤ mb.date) → f < mb.date →
      specScan untilD (some f) sinceK seen (mb :: post)
        = specScan untilD (some f) sinceK seen post)
    ∧ (∀ m ∈ specRun untilD (some f) sinceK seen [] pages, m.date ≤ f) :=
  ⟨specScan_from_le untilD sinceK f p seen,
   fun hseen hu hf => specScan_skip_newer untilD sinceK f seen mb post hseen hu hf,
   specRun_from_le untilD sinceK f pages seen [] (fun m hm => absurd hm (List.not_mem_nil m))⟩
